import Mathlib

/-!
Verification of the pixel-stack combination engine of pyemir.

The repository's visible C++ source (`src/method_base.h`) declares only the
strategy interface: `CombineMethod` (with `clone` and `central_tendency`)
and `RejectMethod` (with `combine`), over `DataIterator`/`WeightsIterator`
ranges of `double`.  The concrete strategy implementations and the combine
driver are not part of the visible source, so they are modelled here from
the specification, with real numbers rendered as rationals so that every
definition is executable and every comparison exact.
-/

namespace Numina

/-- Error taxonomy of the engine (spec section 7): fatal validation errors
and the defensive empty-input error of central-tendency strategies. -/
inductive CombineError where
  | ShapeMismatch
  | EmptyStack
  | EmptyInput
  | OverRejection
  | InvalidParameter
deriving DecidableEq, Repr

/-- The closed set of central-tendency strategy variants (spec sections 4.1
and 9: the pure-virtual-base pattern maps to tagged variants). -/
inductive CTMethod where
  | mean
  | median
deriving DecidableEq, Repr

/-- Modelled from the spec: the combine result triple
(estimate, variance, count) for one spatial location; the concrete result
type is absent from the visible source, which only shows the three raw
output slots `ResultType* results[3]`. -/
structure CombineResult where
  estimate : ℚ
  variance : ℚ
  count : ℕ
deriving DecidableEq, Repr

/-- Modelled from the spec, together with the next four definitions: the
Mean strategy on an aligned list of (value, weight) pairs.
estimate = Σ(wᵢxᵢ)/Σwᵢ; variance is the unbiased weighted form
Σwᵢ(xᵢ−estimate)²/(Σwᵢ−1) when more than one value contributes, else 0
(spec section 4.1, with the biased/unbiased choice an explicit policy
decision per section 9).  This definition is Σwᵢ. -/
def sumW (ps : List (ℚ × ℚ)) : ℚ := (ps.map (fun p => p.2)).sum

/-- Σwᵢxᵢ of an aligned list of (value, weight) pairs. -/
def sumWX (ps : List (ℚ × ℚ)) : ℚ := (ps.map (fun p => p.2 * p.1)).sum

/-- The weighted-mean estimate Σ(wᵢxᵢ)/Σwᵢ. -/
def meanEst (ps : List (ℚ × ℚ)) : ℚ := sumWX ps / sumW ps

/-- The weighted variance: the unbiased form Σwᵢ(xᵢ−estimate)²/(Σwᵢ−1)
when more than one value contributes, else 0. -/
def meanVar (ps : List (ℚ × ℚ)) : ℚ :=
  if 1 < ps.length then
    (ps.map (fun p => p.2 * (p.1 - meanEst ps) ^ 2)).sum / (sumW ps - 1)
  else 0

/-- The Mean strategy result on an aligned list of (value, weight)
pairs. -/
def meanPairs (ps : List (ℚ × ℚ)) : ℚ × ℚ := (meanEst ps, meanVar ps)

/-- The middle of an already sorted value list: odd count gives the middle
element, even count the average of the two middle elements. -/
def midOfSorted (s : List ℚ) : ℚ :=
  if s.length % 2 = 1 then s.getD (s.length / 2) 0
  else (s.getD (s.length / 2 - 1) 0 + s.getD (s.length / 2) 0) / 2

/-- Modelled from the spec: median of a value list — sort a private copy
and take the middle (spec section 4.1). -/
def medianOf (xs : List ℚ) : ℚ := midOfSorted (xs.insertionSort (· ≤ ·))

/-- Scale factor relating the median absolute deviation to a standard
deviation; the exact constant is a policy decision (spec section 9). -/
def madScale : ℚ := 14826 / 10000

/-- The scaled median absolute deviation of a value list. -/
def madOf (xs : List ℚ) : ℚ := medianOf (xs.map (fun x => |x - medianOf xs|))

/-- Modelled from the spec: the Median strategy — estimate is the median of
the values; the variance is a robust scale estimate built from the scaled
median absolute deviation (spec section 4.1). -/
def medianPairs (ps : List (ℚ × ℚ)) : ℚ × ℚ :=
  (medianOf (ps.map (fun p => p.1)), (madScale * madOf (ps.map (fun p => p.1))) ^ 2)

/-- Dispatch of the central-tendency reduction over the strategy tag,
acting on an aligned list of (value, weight) pairs. -/
def centralTendencyPairs : CTMethod → List (ℚ × ℚ) → ℚ × ℚ
  | .mean, ps => meanPairs ps
  | .median, ps => medianPairs ps

/-- Modelled from the spec: the public `central_tendency` operation of a
`CombineMethod` (declared in `method_base.h`): reduce a value sequence and
its aligned weight sequence to (estimate, variance); invoked on an empty
value sequence it fails with `EmptyInput` (spec section 4.1). -/
def centralTendency (m : CTMethod) (vs ws : List ℚ) : Except CombineError (ℚ × ℚ) :=
  if vs = [] then .error .EmptyInput
  else .ok (centralTendencyPairs m (vs.zip ws))

/-- Decidable equality of fallible results, used to evaluate the model at
concrete inputs. -/
instance {e a : Type} [DecidableEq e] [DecidableEq a] : DecidableEq (Except e a) := fun x y =>
  match x, y with
  | .ok u, .ok v =>
    if h : u = v then .isTrue (congrArg Except.ok h)
    else .isFalse (fun hc => h (Except.ok.inj hc))
  | .error u, .error v =>
    if h : u = v then .isTrue (congrArg Except.error h)
    else .isFalse (fun hc => h (Except.error.inj hc))
  | .ok _, .error _ => .isFalse (fun hc => Except.noConfusion hc)
  | .error _, .ok _ => .isFalse (fun hc => Except.noConfusion hc)

/-- The closed set of rejection strategy variants with their configured
parameters and the central-tendency strategy they delegate to
(spec sections 4.2 and 6). -/
inductive RejMethod where
  | noReject (ct : CTMethod)
  | minmax (ct : CTMethod) (lowk highk : ℕ)
  | sigclip (ct : CTMethod) (low high : ℚ) (maxIter : ℕ)
deriving DecidableEq, Repr

/-- The central-tendency strategy a rejection strategy delegates to. -/
def ctOf : RejMethod → CTMethod
  | .noReject c => c
  | .minmax c _ _ => c
  | .sigclip c _ _ _ => c

/-- Ordering of (value, weight) pairs by value; Min-Max rejection discards
extremes by value, not by position (spec section 4.2). -/
def pairLE (p q : ℚ × ℚ) : Prop := p.1 ≤ q.1

instance : DecidableRel pairLE := fun p q => inferInstanceAs (Decidable (p.1 ≤ q.1))

instance : IsTotal (ℚ × ℚ) pairLE := ⟨fun p q => le_total p.1 q.1⟩

instance : IsTrans (ℚ × ℚ) pairLE := ⟨fun _ _ _ h h2 => le_trans h h2⟩

/-- Modelled from the spec: the sigma-clipping rejection test for a single
value `x`, given the current mean `m` and variance `v`.  A value is
rejected when it lies outside [m − low·σ, m + high·σ]; with σ = √v this is
rendered exactly over ℚ by comparing squared distances on the matching
side (for low, high, v ≥ 0: m − x > low·σ iff m − x > 0 and
(m − x)² > low²·v). -/
def clipReject (low high m v x : ℚ) : Bool :=
  (0 < m - x && low ^ 2 * v < (m - x) ^ 2) || (0 < x - m && high ^ 2 * v < (x - m) ^ 2)

/-- One sigma-clipping iteration: compute mean and variance of the current
survivors with the Mean strategy, then drop every rejected value. -/
def clipPass (low high : ℚ) (s : List (ℚ × ℚ)) : List (ℚ × ℚ) :=
  s.filter (fun p => !clipReject low high (meanEst s) (meanVar s) p.1)

/-- Modelled from the spec: on total rejection, retain the single value
closest to the last computed mean `m` rather than producing an empty
result (spec section 4.2). -/
def retainClosest (m : ℚ) : List (ℚ × ℚ) → List (ℚ × ℚ)
  | [] => []
  | p :: ps => [ps.foldl (fun best q => if (q.1 - m) ^ 2 < (best.1 - m) ^ 2 then q else best) p]

/-- Modelled from the spec: the sigma-clipping iteration loop over the
surviving (value, weight) pairs, fuelled by the remaining iteration budget.
Returns the final surviving set together with the number of iterations
performed.  It stops when an iteration produces no new rejections or when
the budget is exhausted; if a pass rejects everything, the value closest to
the last mean is retained (spec section 4.2). -/
def sigmaClipLoop (low high : ℚ) : ℕ → List (ℚ × ℚ) → List (ℚ × ℚ) × ℕ
  | 0, s => (s, 0)
  | fuel + 1, s =>
    if (clipPass low high s).length = s.length then (s, 0)
    else if clipPass low high s = [] then (retainClosest (meanEst s) s, 1)
    else ((sigmaClipLoop low high fuel (clipPass low high s)).1,
          (sigmaClipLoop low high fuel (clipPass low high s)).2 + 1)

/-- The surviving (value, weight) pairs a rejection strategy hands to its
central-tendency strategy.  No-Rejection keeps everything; Min-Max sorts by
value and discards the configured number of extremes, but retains at least
one value; Sigma-Clipping runs the iteration loop. -/
def surviving : RejMethod → List (ℚ × ℚ) → List (ℚ × ℚ)
  | .noReject _, ps => ps
  | .minmax _ lowk highk, ps =>
    ((ps.insertionSort pairLE).drop (min lowk (ps.length - 1))).take
      (max 1 (ps.length - lowk - highk))
  | .sigclip _ low high maxIter, ps => (sigmaClipLoop low high maxIter ps).1

/-- Final reduction of a surviving set into a combine result; the empty
case is checked defensively and reported as `EmptyInput`
(spec section 7). -/
def applyCT (ct : CTMethod) (ps : List (ℚ × ℚ)) : Except CombineError CombineResult :=
  if ps = [] then .error .EmptyInput
  else .ok ⟨(centralTendencyPairs ct ps).1, (centralTendencyPairs ct ps).2, ps.length⟩

/-- Modelled from the spec: the `combine` operation of a `RejectMethod`
(declared in `method_base.h`): the terminal reduction of one pixel stack —
select the survivors according to the configured rejection strategy and
reduce them with the configured central-tendency strategy, producing the
(estimate, variance, count) triple. -/
def combine (rm : RejMethod) (vs ws : List ℚ) : Except CombineError CombineResult :=
  applyCT (ctOf rm) (surviving rm (vs.zip ws))

/-- Shape of a 2-D array modelled as a list of rows: the list of row
lengths.  Two arrays agree in shape exactly when these lists coincide. -/
def shapeOf (img : List (List ℚ)) : List ℕ := img.map List.length

/-- Modelled from the spec: the three output planes (value, variance,
count) produced by the combine driver (spec section 3). -/
structure DriverOutput where
  value : List (List ℚ)
  variance : List (List ℚ)
  count : List (List ℕ)
deriving DecidableEq, Repr

/-- Modelled from the spec: the combine driver (spec section 4.3).  It
validates first — `EmptyStack` when there is no image, `ShapeMismatch`
when any image (or any weight plane, when weights are present) disagrees
in shape with the first image or the weight stack length differs — and
only then allocates and populates the three output planes, building the
pixel stack and weight sequence location by location and invoking the
configured rejection strategy.  An absent (empty) weight stack means unit
weights. -/
def combineImages (rm : RejMethod) (images weights : List (List (List ℚ))) :
    Except CombineError DriverOutput :=
  match images with
  | [] => .error .EmptyStack
  | img0 :: rest =>
    if ((img0 :: rest).all (fun i => shapeOf i == shapeOf img0) &&
        (weights.isEmpty ||
          (weights.length == (img0 :: rest).length &&
           weights.all (fun w => shapeOf w == shapeOf img0)))) then
      let stack := fun (r c : ℕ) => (img0 :: rest).map (fun i => (i.getD r []).getD c 0)
      let wstack := fun (r c : ℕ) =>
        if weights.isEmpty then List.replicate (img0 :: rest).length 1
        else weights.map (fun w => (w.getD r []).getD c 0)
      let res := fun (r c : ℕ) => ((combine rm (stack r c) (wstack r c)).toOption).getD ⟨0, 0, 0⟩
      let plane := fun (f : CombineResult → ℚ) =>
        (List.range img0.length).map (fun r =>
          (List.range (img0.getD r []).length).map (fun c => f (res r c)))
      .ok { value := plane (fun t => t.estimate)
            variance := plane (fun t => t.variance)
            count := (List.range img0.length).map (fun r =>
              (List.range (img0.getD r []).length).map (fun c => (res r c).count)) }
    else .error .ShapeMismatch

/-- A rejection-strategy instance as held by one worker: its configuration
together with per-call scratch state (a sort/work buffer), modelling that a
C++ strategy object may hold mutable scratch data across calls
(spec section 5). -/
structure RejectInstance where
  cfg : RejMethod
  scratch : List (ℚ × ℚ)
deriving DecidableEq, Repr

/-- `clone()` of a rejection strategy: a fresh independent instance with
the same configuration (deep copy of configuration, no shared mutable
state — spec sections 4.1 and 5, `method_base.h` line 37). -/
def cloneInstance (s : RejectInstance) : RejectInstance := ⟨s.cfg, []⟩

/-- A call of `combine` on a strategy instance: the result depends on the
configuration and the inputs; the instance's scratch buffer is overwritten
by the call's working data. -/
def callCombine (s : RejectInstance) (vs ws : List ℚ) :
    Except CombineError CombineResult × RejectInstance :=
  (combine s.cfg vs ws, ⟨s.cfg, (vs.zip ws).insertionSort pairLE⟩)

/-- Run a sequence of `combine` calls against one instance, threading its
(mutable) scratch state. -/
def runCalls (s : RejectInstance) : List (List ℚ × List ℚ) → RejectInstance
  | [] => s
  | c :: cs => runCalls (callCombine s c.1 c.2).2 cs

/-- A central-tendency strategy instance with per-call scratch state
(e.g. Median's sort buffer). -/
structure CTInstance where
  cfg : CTMethod
  scratch : List ℚ
deriving DecidableEq, Repr

/-- `clone()` of a central-tendency strategy instance. -/
def cloneCT (s : CTInstance) : CTInstance := ⟨s.cfg, []⟩

/-- A call of `central_tendency` on a strategy instance; Median's private
sort buffer is kept as scratch state for the next call. -/
def callCT (s : CTInstance) (vs ws : List ℚ) :
    Except CombineError (ℚ × ℚ) × CTInstance :=
  (centralTendency s.cfg vs ws, ⟨s.cfg, vs.insertionSort (· ≤ ·)⟩)

/-- Run a sequence of `central_tendency` calls against one instance. -/
def runCallsCT (s : CTInstance) : List (List ℚ × List ℚ) → CTInstance
  | [] => s
  | c :: cs => runCallsCT (callCT s c.1 c.2).2 cs

/-- Modelled from the spec: `central_tendency` with the caller's buffers
made explicit — the result together with the caller's value and weight
sequences as they stand after the call.  Median sorts a private copy, so
the caller's sequences come back unchanged (spec section 4.1). -/
def centralTendencyProc (m : CTMethod) (vs ws : List ℚ) :
    Except CombineError (ℚ × ℚ) × (List ℚ × List ℚ) :=
  (centralTendency m vs ws, (vs, ws))

/-- Modelled from the spec: the driver's traversal over the per-location
pixel stacks with the caller's stacks made explicit — each location's
stack is read to produce that location's result and handed back
untouched (spec section 4.3: does not mutate input arrays). -/
def combineLocations (rm : RejMethod) : List (List ℚ × List ℚ) →
    List CombineResult × List (List ℚ × List ℚ)
  | [] => ([], [])
  | s :: rest =>
    let r := ((combine rm s.1 s.2).toOption).getD ⟨0, 0, 0⟩
    let t := combineLocations rm rest
    (r :: t.1, s :: t.2)

/-- The weights argument of `central_tendency` and `combine` is a bare
begin iterator (`method_base.h` lines 29-31 and 38-47): a call reads
exactly `n` elements from the underlying weight buffer, and reading past
the buffer's end is out of range, modelled as `none`. -/
def readRange (w : List ℚ) (n : ℕ) : Option (List ℚ) :=
  if n ≤ w.length then some (w.take n) else none

/-- `central_tendency` at the iterator interface: the value range plus the
weights begin iterator over its backing buffer `w`. -/
def centralTendencyIter (m : CTMethod) (vs w : List ℚ) :
    Option (Except CombineError (ℚ × ℚ)) :=
  (readRange w vs.length).map (fun ws => centralTendency m vs ws)

/-- `combine` at the iterator interface: the value range plus the weights
begin iterator over its backing buffer `w`. -/
def combineIter (rm : RejMethod) (vs w : List ℚ) :
    Option (Except CombineError CombineResult) :=
  (readRange w vs.length).map (fun ws => combine rm vs ws)

/-! ### Helper lemmas -/

lemma retainClosest_ne_nil (m : ℚ) {s : List (ℚ × ℚ)} (h : s ≠ []) :
    retainClosest m s ≠ [] := by
  cases s with
  | nil => exact absurd rfl h
  | cons p ps => simp [retainClosest]

lemma sigmaClipLoop_ne_nil (low high : ℚ) (fuel : ℕ) :
    ∀ {s : List (ℚ × ℚ)}, s ≠ [] → (sigmaClipLoop low high fuel s).1 ≠ [] := by
  induction fuel with
  | zero => intro s h; exact h
  | succ k ih =>
    intro s h
    simp only [sigmaClipLoop]
    split
    · exact h
    · split
      · exact retainClosest_ne_nil _ h
      · exact ih (by assumption)

lemma sigmaClipLoop_steps_le (low high : ℚ) (fuel : ℕ) :
    ∀ s, (sigmaClipLoop low high fuel s).2 ≤ fuel := by
  induction fuel with
  | zero => intro s; exact Nat.le_refl 0
  | succ k ih =>
    intro s
    simp only [sigmaClipLoop]
    split
    · exact Nat.zero_le _
    · split
      · exact Nat.succ_le_succ (Nat.zero_le k)
      · exact Nat.succ_le_succ (ih _)

lemma sigmaClipLoop_stable (low high : ℚ) (fuel : ℕ) (s : List (ℚ × ℚ))
    (h : clipPass low high s = s) : sigmaClipLoop low high fuel s = (s, 0) := by
  cases fuel with
  | zero => rfl
  | succ k => simp [sigmaClipLoop, h]

lemma surviving_ne_nil (rm : RejMethod) {ps : List (ℚ × ℚ)} (h : ps ≠ []) :
    surviving rm ps ≠ [] := by
  cases rm with
  | noReject c => exact h
  | minmax c lk hk =>
    have hlen : (ps.insertionSort pairLE).length = ps.length :=
      (List.perm_insertionSort pairLE ps).length_eq
    have hp : 0 < ps.length := List.length_pos.mpr h
    simp only [surviving]
    rw [← List.length_pos, List.length_take, List.length_drop, hlen]
    omega
  | sigclip c low high it => exact sigmaClipLoop_ne_nil low high it h

lemma zip_length_eq {vs ws : List ℚ} (hlen : ws.length = vs.length) :
    (vs.zip ws).length = vs.length := by
  rw [List.length_zip, hlen, min_self]

lemma zip_ne_nil {vs ws : List ℚ} (hne : vs ≠ []) (hlen : ws.length = vs.length) :
    vs.zip ws ≠ [] := by
  intro hc
  apply hne
  have hz := zip_length_eq hlen
  rw [hc] at hz
  exact List.length_eq_zero.mp hz.symm

/-- The shape every successful `combine` takes: the central tendency of the
surviving set together with its size as count. -/
lemma combine_ok (rm : RejMethod) {vs ws : List ℚ} (hne : vs ≠ [])
    (hlen : ws.length = vs.length) :
    combine rm vs ws =
      .ok ⟨(centralTendencyPairs (ctOf rm) (surviving rm (vs.zip ws))).1,
           (centralTendencyPairs (ctOf rm) (surviving rm (vs.zip ws))).2,
           (surviving rm (vs.zip ws)).length⟩ ∧
    1 ≤ (surviving rm (vs.zip ws)).length := by
  have hs := surviving_ne_nil rm (zip_ne_nil hne hlen)
  exact ⟨by simp only [combine, applyCT, if_neg hs], List.length_pos.mpr hs⟩

lemma insertionSort_eq_of_perm {xs ys : List ℚ} (h : xs.Perm ys) :
    xs.insertionSort (· ≤ ·) = ys.insertionSort (· ≤ ·) :=
  List.eq_of_perm_of_sorted
    ((List.perm_insertionSort _ xs).trans (h.trans (List.perm_insertionSort _ ys).symm))
    (List.sorted_insertionSort _ xs) (List.sorted_insertionSort _ ys)

lemma medianOf_perm {xs ys : List ℚ} (h : xs.Perm ys) : medianOf xs = medianOf ys := by
  unfold medianOf
  rw [insertionSort_eq_of_perm h]

lemma meanPairs_perm {ps qs : List (ℚ × ℚ)} (h : ps.Perm qs) : meanPairs ps = meanPairs qs := by
  have e1 : sumW ps = sumW qs := (h.map _).sum_eq
  have e2 : sumWX ps = sumWX qs := (h.map _).sum_eq
  have e3 : meanEst ps = meanEst qs := by rw [meanEst, meanEst, e1, e2]
  have e4 : meanVar ps = meanVar qs := by
    rw [meanVar, meanVar, e1, e3, h.length_eq, (h.map (fun p => p.2 * (p.1 - meanEst qs) ^ 2)).sum_eq]
  rw [meanPairs, meanPairs, e3, e4]

lemma medianPairs_perm {ps qs : List (ℚ × ℚ)} (h : ps.Perm qs) :
    medianPairs ps = medianPairs qs := by
  have hm : (ps.map (fun p => p.1)).Perm (qs.map (fun p => p.1)) := h.map _
  have e1 : medianOf (ps.map (fun p => p.1)) = medianOf (qs.map (fun p => p.1)) :=
    medianOf_perm hm
  have e2 : madOf (ps.map (fun p => p.1)) = madOf (qs.map (fun p => p.1)) := by
    rw [madOf, madOf, e1, medianOf_perm (hm.map _)]
  rw [medianPairs, medianPairs, e1, e2]

lemma centralTendencyPairs_perm (ct : CTMethod) {ps qs : List (ℚ × ℚ)} (h : ps.Perm qs) :
    centralTendencyPairs ct ps = centralTendencyPairs ct qs := by
  cases ct with
  | mean => exact meanPairs_perm h
  | median => exact medianPairs_perm h

lemma surviving_minmax_zero (ct : CTMethod) (ps : List (ℚ × ℚ)) :
    surviving (.minmax ct 0 0) ps = ps.insertionSort pairLE := by
  have hlen : (ps.insertionSort pairLE).length = ps.length :=
    (List.perm_insertionSort pairLE ps).length_eq
  have h0 : min 0 (ps.length - 1) = 0 := by omega
  have h2 : ps.length - 0 - 0 = ps.length := by omega
  simp only [surviving, h0, h2, List.drop_zero]
  cases ps with
  | nil => rfl
  | cons p tl =>
    have h1 : max 1 (p :: tl).length = (p :: tl).length := by
      simp only [List.length_cons]
      omega
    rw [h1, ← hlen, List.take_length]

lemma combine_minmax_zero (ct : CTMethod) (vs ws : List ℚ) :
    combine (.minmax ct 0 0) vs ws = combine (.noReject ct) vs ws := by
  have hperm := List.perm_insertionSort pairLE (vs.zip ws)
  unfold combine
  rw [surviving_minmax_zero]
  simp only [ctOf, surviving, applyCT]
  by_cases hps : vs.zip ws = []
  · rw [hps]
    rfl
  · have hs : (vs.zip ws).insertionSort pairLE ≠ [] := by
      intro hc
      apply hps
      have hl := hperm.length_eq
      rw [hc] at hl
      exact List.length_eq_zero.mp hl.symm
    rw [if_neg hs, if_neg hps, centralTendencyPairs_perm ct hperm, hperm.length_eq]

lemma zip_map_eq_zipWith (f : ℚ → ℚ → ℚ) :
    ∀ vs ws : List ℚ, (vs.zip ws).map (fun p => f p.1 p.2) = List.zipWith f vs ws := by
  intro vs
  induction vs with
  | nil => intro ws; rfl
  | cons x xs ih =>
    intro ws
    cases ws with
    | nil => rfl
    | cons w wtl => simp [ih]

lemma zip_map_wx (vs ws : List ℚ) :
    (vs.zip ws).map (fun p => p.2 * p.1) = List.zipWith (fun x w => w * x) vs ws :=
  zip_map_eq_zipWith (fun x w => w * x) vs ws

lemma zip_map_wdev (vs ws : List ℚ) (c : ℚ) :
    (vs.zip ws).map (fun p => p.2 * (p.1 - c) ^ 2) =
      List.zipWith (fun x w => w * (x - c) ^ 2) vs ws :=
  zip_map_eq_zipWith (fun x w => w * (x - c) ^ 2) vs ws

lemma zip_map_snd : ∀ {vs ws : List ℚ}, ws.length = vs.length →
    (vs.zip ws).map (fun p => p.2) = ws := by
  intro vs
  induction vs with
  | nil =>
    intro ws h
    rw [List.eq_nil_of_length_eq_zero h]
    rfl
  | cons x xs ih =>
    intro ws h
    cases ws with
    | nil => exact absurd h (by simp)
    | cons w wtl =>
      simp only [List.zip_cons_cons, List.map_cons, List.cons.injEq, true_and]
      exact ih (by simpa using h)

lemma zip_map_fst : ∀ {vs ws : List ℚ}, ws.length = vs.length →
    (vs.zip ws).map (fun p => p.1) = vs := by
  intro vs
  induction vs with
  | nil => intro ws h; rfl
  | cons x xs ih =>
    intro ws h
    cases ws with
    | nil => exact absurd h (by simp)
    | cons w wtl =>
      simp only [List.zip_cons_cons, List.map_cons, List.cons.injEq, true_and]
      exact ih (by simpa using h)

lemma runCalls_cfg : ∀ (calls : List (List ℚ × List ℚ)) (s : RejectInstance),
    (runCalls s calls).cfg = s.cfg := by
  intro calls
  induction calls with
  | nil => intro s; rfl
  | cons c cs ih =>
    intro s
    simp only [runCalls]
    rw [ih]
    rfl

lemma runCallsCT_cfg : ∀ (calls : List (List ℚ × List ℚ)) (s : CTInstance),
    (runCallsCT s calls).cfg = s.cfg := by
  intro calls
  induction calls with
  | nil => intro s; rfl
  | cons c cs ih =>
    intro s
    simp only [runCallsCT]
    rw [ih]
    rfl

/-! ### Claim theorems -/

/-- C1: for every rejection strategy and every non-empty pixel stack (with
its aligned weight sequence), `combine` succeeds and returns a count of at
least 1 — it never produces a zero-count result from non-empty input. -/
theorem combine_count_ge_one (rm : RejMethod) (vs ws : List ℚ) (hne : vs ≠ [])
    (hlen : ws.length = vs.length) :
    ∃ r, combine rm vs ws = .ok r ∧ 1 ≤ r.count := by
  obtain ⟨h1, h2⟩ := combine_ok rm hne hlen
  exact ⟨_, h1, h2⟩

/-- C1 witness: sigma-clipping on a concrete five-value stack returns a
positive count. -/
theorem combine_count_ge_one_witness :
    ∃ r, combine (.sigclip .mean 2 2 10) [1, 2, 3, 4, 100] [1, 1, 1, 1, 1] = .ok r ∧
      1 ≤ r.count :=
  combine_count_ge_one (.sigclip .mean 2 2 10) [1, 2, 3, 4, 100] [1, 1, 1, 1, 1]
    (by decide) (by decide)

/-- C2: the combine driver validates before computing — an empty image
stack fails with `EmptyStack`, any two images disagreeing in shape fail
with `ShapeMismatch`, and in either case no output is produced. -/
theorem driver_validates_first (rm : RejMethod) (images weights : List (List (List ℚ))) :
    (images = [] → combineImages rm images weights = .error .EmptyStack ∧
      ∀ o, combineImages rm images weights ≠ .ok o) ∧
    ((∃ a ∈ images, ∃ b ∈ images, shapeOf a ≠ shapeOf b) →
      combineImages rm images weights = .error .ShapeMismatch ∧
      ∀ o, combineImages rm images weights ≠ .ok o) := by
  constructor
  · intro h
    subst h
    exact ⟨rfl, fun o hc => Except.noConfusion hc⟩
  · intro h
    cases images with
    | nil =>
      obtain ⟨a, ha, _⟩ := h
      exact absurd ha (List.not_mem_nil a)
    | cons img0 rest =>
      have hcond : ((img0 :: rest).all (fun i => shapeOf i == shapeOf img0) &&
          (weights.isEmpty ||
            (weights.length == (img0 :: rest).length &&
             weights.all (fun w => shapeOf w == shapeOf img0)))) = false := by
        obtain ⟨a, ha, b, hb, hab⟩ := h
        rcases Bool.eq_false_or_eq_true ((img0 :: rest).all (fun i => shapeOf i == shapeOf img0))
          with hall | hall
        · exfalso
          rw [List.all_eq_true] at hall
          have hae : shapeOf a = shapeOf img0 := by simpa using hall a ha
          have hbe : shapeOf b = shapeOf img0 := by simpa using hall b hb
          exact hab (hae.trans hbe.symm)
        · rw [hall, Bool.false_and]
      have hres : combineImages rm (img0 :: rest) weights = .error .ShapeMismatch := by
        simp only [combineImages, hcond]
        rfl
      exact ⟨hres, fun o hc => by rw [hres] at hc; exact Except.noConfusion hc⟩

/-- C2 witness: the concrete empty stack and a concrete two-image stack of
mismatched shapes are both rejected before any output is produced. -/
theorem driver_validates_first_witness :
    (combineImages (.noReject .mean) [] [] = .error .EmptyStack ∧
      ∀ o, combineImages (.noReject .mean) [] [] ≠ .ok o) ∧
    (combineImages (.noReject .mean) [[[1]], [[1], [2]]] [] = .error .ShapeMismatch ∧
      ∀ o, combineImages (.noReject .mean) [[[1]], [[1], [2]]] [] ≠ .ok o) :=
  ⟨(driver_validates_first (.noReject .mean) [] []).1 rfl,
   (driver_validates_first (.noReject .mean) [[[1]], [[1], [2]]] []).2 (by decide)⟩

/-- C3: both strategy kinds are clonable — a clone carries the same
configuration — and a clone is independent of its original: whatever
sequence of calls ran on the original instance, a call on a clone taken
afterwards returns exactly what a call on a clone of the pristine instance
returns. -/
theorem clone_independent (s : RejectInstance) (t : CTInstance)
    (calls callsCT : List (List ℚ × List ℚ)) (vs ws : List ℚ) :
    (cloneInstance s).cfg = s.cfg ∧ (cloneCT t).cfg = t.cfg ∧
    (callCombine (cloneInstance (runCalls s calls)) vs ws).1 =
      (callCombine (cloneInstance s) vs ws).1 ∧
    (callCT (cloneCT (runCallsCT t callsCT)) vs ws).1 =
      (callCT (cloneCT t) vs ws).1 := by
  refine ⟨rfl, rfl, ?_, ?_⟩
  · simp only [callCombine, cloneInstance, runCalls_cfg]
  · simp only [callCT, cloneCT, runCallsCT_cfg]

/-- C6: every central-tendency strategy invoked on an empty value sequence
fails with `EmptyInput`, and this error is unreachable through any
rejection strategy applied to a non-empty pixel stack. -/
theorem empty_input_guard :
    (∀ (m : CTMethod) (ws : List ℚ), centralTendency m [] ws = .error .EmptyInput) ∧
    (∀ (rm : RejMethod) (vs ws : List ℚ), vs ≠ [] → ws.length = vs.length →
      combine rm vs ws ≠ .error .EmptyInput) := by
  constructor
  · intro m ws
    rfl
  · intro rm vs ws hne hlen
    rw [(combine_ok rm hne hlen).1]
    exact fun hc => Except.noConfusion hc

/-- C6 witness: the Mean strategy rejects the empty sequence, and
no-rejection `combine` on a concrete singleton stack does not raise
`EmptyInput`. -/
theorem empty_input_guard_witness :
    centralTendency .mean [] [] = .error .EmptyInput ∧
    combine (.noReject .mean) [7] [1] ≠ .error .EmptyInput :=
  ⟨empty_input_guard.1 .mean [],
   empty_input_guard.2 (.noReject .mean) [7] [1] (by decide) (by decide)⟩

/-- C7: the sigma-clipping loop terminates for every input and parameter
triple — `combine` succeeds with the reduction over the loop's final
surviving set, the number of iterations performed never exceeds the
configured maximum, and a pass producing no new rejections stops the loop
immediately with no error. -/
theorem sigclip_terminates (ct : CTMethod) (low high : ℚ) (maxIter : ℕ) (vs ws : List ℚ)
    (hne : vs ≠ []) (hlen : ws.length = vs.length) :
    (∃ r, combine (.sigclip ct low high maxIter) vs ws = .ok r ∧
       r.count = (sigmaClipLoop low high maxIter (vs.zip ws)).1.length ∧ 1 ≤ r.count) ∧
    (sigmaClipLoop low high maxIter (vs.zip ws)).2 ≤ maxIter ∧
    (∀ (fuel : ℕ) (s : List (ℚ × ℚ)), clipPass low high s = s →
       sigmaClipLoop low high fuel s = (s, 0)) := by
  obtain ⟨h1, h2⟩ := combine_ok (.sigclip ct low high maxIter) hne hlen
  refine ⟨⟨_, h1, rfl, h2⟩, sigmaClipLoop_steps_le low high maxIter _, ?_⟩
  intro fuel s hs
  exact sigmaClipLoop_stable low high fuel s hs

/-- C7 witness: sigma-clipping with an iteration budget of 3 on a concrete
stack succeeds, performs at most 3 iterations, and the stability property
holds at a concrete stable input. -/
theorem sigclip_terminates_witness :
    (∃ r, combine (.sigclip .mean 2 2 3) [1, 2, 3, 4, 100] [1, 1, 1, 1, 1] = .ok r ∧
       r.count = (sigmaClipLoop 2 2 3 ([1, 2, 3, 4, 100].zip [1, 1, 1, 1, 1])).1.length ∧
       1 ≤ r.count) ∧
    (sigmaClipLoop 2 2 3 ([1, 2, 3, 4, 100].zip [1, 1, 1, 1, 1])).2 ≤ 3 ∧
    (∀ (fuel : ℕ) (s : List (ℚ × ℚ)), clipPass 2 2 s = s →
       sigmaClipLoop 2 2 fuel s = (s, 0)) :=
  sigclip_terminates .mean 2 2 3 [1, 2, 3, 4, 100] [1, 1, 1, 1, 1] (by decide) (by decide)

/-- C8: Min-Max rejection configured with low_k = 0 and high_k = 0 returns
exactly the same triple as No-Rejection on every input, and on a non-empty
stack the shared count equals the input length. -/
theorem minmax_zero_equiv (ct : CTMethod) (vs ws : List ℚ) :
    combine (.minmax ct 0 0) vs ws = combine (.noReject ct) vs ws ∧
    (vs ≠ [] → ws.length = vs.length →
      ∃ r, combine (.noReject ct) vs ws = .ok r ∧ r.count = vs.length) := by
  refine ⟨combine_minmax_zero ct vs ws, ?_⟩
  intro hne hlen
  obtain ⟨h1, _⟩ := combine_ok (.noReject ct) hne hlen
  refine ⟨_, h1, ?_⟩
  simp only [surviving]
  exact zip_length_eq hlen

/-- C8 witness: on a concrete stack, Min-Max with zero clip counts agrees
with No-Rejection and the count equals the stack length. -/
theorem minmax_zero_equiv_witness :
    combine (.minmax .median 0 0) [3, 1, 2] [1, 1, 1] =
      combine (.noReject .median) [3, 1, 2] [1, 1, 1] ∧
    ∃ r, combine (.noReject .median) [3, 1, 2] [1, 1, 1] = .ok r ∧ r.count = 3 := by
  have h := minmax_zero_equiv .median [3, 1, 2] [1, 1, 1]
  exact ⟨h.1, by simpa using h.2 (by decide) (by decide)⟩

/-- C9: no engine operation mutates the caller's inputs — the
central-tendency strategies hand back the caller's value and weight
sequences unchanged (Median sorts a private copy), and the driver's
traversal hands back every pixel stack unchanged. -/
theorem no_input_mutation :
    (∀ (m : CTMethod) (vs ws : List ℚ), (centralTendencyProc m vs ws).2 = (vs, ws)) ∧
    (∀ (rm : RejMethod) (locs : List (List ℚ × List ℚ)),
      (combineLocations rm locs).2 = locs) := by
  constructor
  · intro m vs ws
    rfl
  · intro rm locs
    induction locs with
    | nil => rfl
    | cons s rest ih => simp only [combineLocations, ih]

/-- C10: the weights argument is a bare begin iterator — a call reads
exactly as many weight elements as there are values; under the
precondition that the backing weight buffer holds at least that many
elements both operations are total, and a shorter buffer makes the read
out of range. -/
theorem weights_begin_iterator (m : CTMethod) (rm : RejMethod) (vs w : List ℚ) :
    (vs.length ≤ w.length →
      readRange w vs.length = some (w.take vs.length) ∧
      (w.take vs.length).length = vs.length ∧
      centralTendencyIter m vs w = some (centralTendency m vs (w.take vs.length)) ∧
      combineIter rm vs w = some (combine rm vs (w.take vs.length))) ∧
    (w.length < vs.length →
      centralTendencyIter m vs w = none ∧ combineIter rm vs w = none) := by
  constructor
  · intro h
    have hr : readRange w vs.length = some (w.take vs.length) := by
      simp only [readRange, if_pos h]
    refine ⟨hr, ?_, ?_, ?_⟩
    · rw [List.length_take]
      exact Nat.min_eq_left h
    · rw [centralTendencyIter, hr]
      rfl
    · rw [combineIter, hr]
      rfl
  · intro h
    have hr : readRange w vs.length = none := by
      simp only [readRange, if_neg (Nat.not_le_of_lt h)]
    exact ⟨by rw [centralTendencyIter, hr]; rfl, by rw [combineIter, hr]; rfl⟩

/-- C10 witness: with three values over a three-element weight buffer the
iterator calls are total; over a two-element buffer they read out of
range. -/
theorem weights_begin_iterator_witness :
    (readRange [1, 1, 1] 3 = some ([1, 1, 1].take 3) ∧
      ([1, 1, 1].take 3).length = 3 ∧
      centralTendencyIter .mean [1, 2, 3] [1, 1, 1] =
        some (centralTendency .mean [1, 2, 3] ([1, 1, 1].take 3)) ∧
      combineIter (.noReject .mean) [1, 2, 3] [1, 1, 1] =
        some (combine (.noReject .mean) [1, 2, 3] ([1, 1, 1].take 3))) ∧
    (centralTendencyIter .mean [1, 2, 3] [1, 1] = none ∧
      combineIter (.noReject .mean) [1, 2, 3] [1, 1] = none) := by
  have h1 := (weights_begin_iterator .mean (.noReject .mean) [1, 2, 3] [1, 1, 1]).1
    (by decide)
  have h2 := (weights_begin_iterator .mean (.noReject .mean) [1, 2, 3] [1, 1]).2
    (by decide)
  have h3 : ([1, 2, 3] : List ℚ).length = 3 := by decide
  rw [h3] at h1
  exact ⟨h1, h2⟩

/-- C4: on a non-empty value sequence with equal-length non-negative
weights, the Mean strategy returns estimate = Σ(wᵢxᵢ)/Σwᵢ, and the
variance is Σwᵢ(xᵢ−estimate)² divided by Σwᵢ (population form) or by
Σwᵢ−1 (unbiased form) when more than one value contributes, and 0
otherwise. -/
theorem mean_formula (vs ws : List ℚ) (hne : vs ≠ []) (hlen : ws.length = vs.length)
    (_hw : ∀ x ∈ ws, 0 ≤ x) :
    ∃ e v, centralTendency .mean vs ws = .ok (e, v) ∧
      e = (List.zipWith (fun x w => w * x) vs ws).sum / ws.sum ∧
      (1 < vs.length →
        (v = (List.zipWith (fun x w => w * (x - e) ^ 2) vs ws).sum / ws.sum ∨
         v = (List.zipWith (fun x w => w * (x - e) ^ 2) vs ws).sum / (ws.sum - 1))) ∧
      (vs.length ≤ 1 → v = 0) := by
  have hz1 := zip_map_wx vs ws
  have hz2 := zip_map_snd hlen
  have hlz := zip_length_eq hlen
  refine ⟨meanEst (vs.zip ws), meanVar (vs.zip ws), ?_, ?_, ?_, ?_⟩
  · simp only [centralTendency, centralTendencyPairs, meanPairs]
    rw [if_neg hne]
  · simp only [meanEst, sumWX, sumW]
    rw [hz1, hz2]
  · intro hlt
    right
    have hlt2 : 1 < (vs.zip ws).length := by rw [hlz]; exact hlt
    simp only [meanVar, sumW]
    rw [if_pos hlt2, zip_map_wdev, hz2]
  · intro hle
    have hnlt : ¬1 < (vs.zip ws).length := by rw [hlz]; omega
    simp only [meanVar]
    rw [if_neg hnlt]

/-- C4 witness: the Mean strategy at the concrete stack [1,2,3,4,100] with
unit weights. -/
theorem mean_formula_witness :
    ∃ e v, centralTendency .mean [1, 2, 3, 4, 100] [1, 1, 1, 1, 1] = .ok (e, v) ∧
      e = (List.zipWith (fun x w => w * x) ([1, 2, 3, 4, 100] : List ℚ)
            [1, 1, 1, 1, 1]).sum / ([1, 1, 1, 1, 1] : List ℚ).sum ∧
      (1 < ([1, 2, 3, 4, 100] : List ℚ).length →
        (v = (List.zipWith (fun x w => w * (x - e) ^ 2) ([1, 2, 3, 4, 100] : List ℚ)
               [1, 1, 1, 1, 1]).sum / ([1, 1, 1, 1, 1] : List ℚ).sum ∨
         v = (List.zipWith (fun x w => w * (x - e) ^ 2) ([1, 2, 3, 4, 100] : List ℚ)
               [1, 1, 1, 1, 1]).sum / (([1, 1, 1, 1, 1] : List ℚ).sum - 1))) ∧
      (([1, 2, 3, 4, 100] : List ℚ).length ≤ 1 → v = 0) :=
  mean_formula [1, 2, 3, 4, 100] [1, 1, 1, 1, 1] (by decide) (by decide) (by decide)

/-- C5: the Median strategy returns the middle of the sorted values — the
middle element for an odd count, the average of the two middle elements
for an even count; in particular the median of [1,2,3] is 2 and the median
of [1,2,3,4] is 5/2. -/
theorem median_middle :
    (∀ vs ws : List ℚ, vs ≠ [] → ws.length = vs.length →
      ∃ s : List ℚ, s.Perm vs ∧ List.Sorted (· ≤ ·) s ∧
        ∃ v, centralTendency .median vs ws = .ok
          ((if s.length % 2 = 1 then s.getD (s.length / 2) 0
            else (s.getD (s.length / 2 - 1) 0 + s.getD (s.length / 2) 0) / 2), v)) ∧
    (∃ v, centralTendency .median [1, 2, 3] [1, 1, 1] = .ok (2, v)) ∧
    (∃ v, centralTendency .median [1, 2, 3, 4] [1, 1, 1, 1] = .ok (5 / 2, v)) := by
  refine ⟨?_, ?_, ?_⟩
  · intro vs ws hne hlen
    refine ⟨vs.insertionSort (· ≤ ·), List.perm_insertionSort _ vs,
      List.sorted_insertionSort _ vs, (madScale * madOf vs) ^ 2, ?_⟩
    have h1 : (vs.zip ws).map (fun p => p.1) = vs := zip_map_fst hlen
    simp only [centralTendency, centralTendencyPairs, medianPairs, h1, medianOf, midOfSorted]
    rw [if_neg hne]
  · refine ⟨(madScale * 1) ^ 2, ?_⟩
    unfold centralTendency
    rw [if_neg (by simp : ¬([1, 2, 3] : List ℚ) = [])]
    norm_num [centralTendencyPairs, medianPairs, medianOf, midOfSorted,
      madOf, madScale, List.insertionSort, List.orderedInsert, abs_of_nonneg, abs_of_nonpos]
  · refine ⟨(madScale * 1) ^ 2, ?_⟩
    unfold centralTendency
    rw [if_neg (by simp : ¬([1, 2, 3, 4] : List ℚ) = [])]
    norm_num [centralTendencyPairs, medianPairs, medianOf, midOfSorted,
      madOf, madScale, List.insertionSort, List.orderedInsert, abs_of_nonneg, abs_of_nonpos]

/-- C5 witness: the general middle-of-sorted property applied at the
concrete stack [1,2,3]. -/
theorem median_middle_witness :
    ∃ s : List ℚ, s.Perm [1, 2, 3] ∧ List.Sorted (· ≤ ·) s ∧
      ∃ v, centralTendency .median [1, 2, 3] [1, 1, 1] = .ok
        ((if s.length % 2 = 1 then s.getD (s.length / 2) 0
          else (s.getD (s.length / 2 - 1) 0 + s.getD (s.length / 2) 0) / 2), v) :=
  median_middle.1 [1, 2, 3] [1, 1, 1] (by decide) (by decide)

end Numina
